import Mathlib

/-!
Verification of the micro-chat repository (jcuga/micro-chat).

The repository is a thin HTTP chat demo over the external `golongpoll`
pub/sub long-poll broker.  The in-repo code (`src/microchat.go`,
`src/unnamed/part_000`, `src/unnamed/part_001`) contributes the HTTP
post handler, topic normalization and input truncation; the broker
itself (topic buffers, waiters, publish/subscribe) lives in the external
library and is modelled here from the specification.

Go strings are handled by the source as rune sequences
(`[]rune(input)`), so strings are embedded as `List Nat` of Unicode
code points.  Machine integers that stay within their range are
embedded as `Nat`.
-/

namespace MicroChat

/-- The catch-all topic constant `ALL_CHATS = "all_chats"` from
src/microchat.go.  Code points of `a l l _ c h a t s`. -/
def ALL_CHATS : List Nat := [97, 108, 108, 95, 99, 104, 97, 116, 115]

/-- The method literal `"POST"` compared against `r.Method` in the post
handler.  Code points of `P O S T`. -/
def POST : List Nat := [80, 79, 83, 84]

/-- The character class `[A-Za-z0-9]` of the compiled pattern in
`getChatPostClosure` (src/microchat.go): ASCII upper, lower, digit. -/
def isAlnumGo (c : Nat) : Bool :=
  (65 ≤ c && c ≤ 90) || (97 ≤ c && c ≤ 122) || (48 ≤ c && c ≤ 57)

/-- Embeds `truncateInput` from src/microchat.go: convert to runes, keep
the first `maxlen` of them when longer, otherwise return the input
unchanged.  All call sites pass positive literal bounds, so `maxlen`
is embedded as `Nat`. -/
def truncateInput (input : List Nat) (maxlen : Nat) : List Nat :=
  if input.length > maxlen then input.take maxlen else input

/-- Left-to-right scan implementing `reg.ReplaceAllString(topic, "-")`
for the pattern `[^A-Za-z0-9]+` (src/microchat.go `normalizeTopic`):
each maximal run of non-alphanumeric characters is replaced by a
single hyphen-minus (code point 45).  The flag records whether the
scan is currently inside such a run (so that only the first character
of the run emits the hyphen). -/
def replaceAux : Bool → List Nat → List Nat
  | _, [] => []
  | inRun, c :: rest =>
    if isAlnumGo c then c :: replaceAux false rest
    else if inRun then replaceAux true rest
    else 45 :: replaceAux true rest

/-- `reg.ReplaceAllString(topic, "-")` for `[^A-Za-z0-9]+`: the scan
starts outside any run. -/
def replaceNonAlnumRuns (l : List Nat) : List Nat := replaceAux false l

/-- `strings.Trim(norm, "-")` (src/microchat.go `normalizeTopic`):
remove all leading and trailing hyphen-minus characters. -/
def trimDashes (l : List Nat) : List Nat :=
  ((l.dropWhile (fun c => c == 45)).reverse.dropWhile (fun c => c == 45)).reverse

/-- `strings.ToLower` on one rune.  On the characters reachable in
`normalizeTopic` (ASCII alphanumerics and the hyphen) Go's Unicode
simple lowering coincides with ASCII lowering: map A-Z (65-90) to
a-z (97-122), fix everything else. -/
def toLowerRune (c : Nat) : Nat :=
  if 65 ≤ c && c ≤ 90 then c + 32 else c

/-- `strings.ToLower` (src/microchat.go `normalizeTopic`). -/
def toLowerGo (l : List Nat) : List Nat := l.map toLowerRune

/-- Embeds `normalizeTopic` from src/microchat.go: replace every run of
non-alphanumerics with a hyphen, trim hyphens from both ends, then
lowercase.  (The src/unnamed/part_001 variant omits the lowercasing.) -/
def normalizeTopic (topic : List Nat) : List Nat :=
  toLowerGo (trimDashes (replaceNonAlnumRuns topic))

/-- Go `unicode.IsSpace` restricted to the Latin-1 range (space, tab,
newline, vertical tab, form feed, carriage return, NEL, NBSP); the
handlers only test whether `strings.TrimSpace` leaves the string
empty, and no claim depends on code points of the Zs category beyond
Latin-1, which this embedding omits. -/
def isSpaceGo (c : Nat) : Bool :=
  c == 32 || c == 9 || c == 10 || c == 11 || c == 12 || c == 13 || c == 133 || c == 160

/-- `strings.TrimSpace` as used by the handlers' blank-field checks. -/
def trimSpace (l : List Nat) : List Nat :=
  ((l.dropWhile isSpaceGo).reverse.dropWhile isSpaceGo).reverse

/-- `ChatPost` from src/microchat.go. -/
structure ChatPost where
  DisplayName : List Nat
  Message : List Nat
  Topic : List Nat
deriving DecidableEq

/-- Outcome of one request to the `/post` handler: 405 on wrong method,
400 on a blank field, otherwise the ordered list of
`manager.Publish(topic, chat)` calls the handler issues. -/
inductive PostOutcome where
  | methodNotAllowed
  | badRequest
  | published (publishes : List (List Nat × ChatPost))
deriving DecidableEq

/-- Embeds the request handler returned by `getChatPostClosure` in
src/microchat.go (the variant without truncation): check the method,
normalize the topic, reject blank fields, then publish the same
`ChatPost` first to the normalized topic and then to `ALL_CHATS`.
Form decoding (`r.ParseForm`) is transport-level and outside the
embedding, which starts from the decoded form values. -/
def handleChatPost (method topicForm display_name message : List Nat) : PostOutcome :=
  if method ≠ POST then .methodNotAllowed
  else
    let topic := normalizeTopic topicForm
    if (trimSpace topic).length = 0 ∨ (trimSpace display_name).length = 0 ∨
        (trimSpace message).length = 0 then .badRequest
    else
      let chat : ChatPost := ⟨display_name, message, topic⟩
      .published [(topic, chat), (ALL_CHATS, chat)]

/-- Embeds the `getChatPostClosure` handler of the src/microchat.go
variant with length enforcement (`truncateInput` at 48/24/256 runes
applied after the blank checks, before constructing the `ChatPost`). -/
def handleChatPostTrunc (method topicForm display_name message : List Nat) : PostOutcome :=
  if method ≠ POST then .methodNotAllowed
  else
    let topic0 := normalizeTopic topicForm
    if (trimSpace topic0).length = 0 ∨ (trimSpace display_name).length = 0 ∨
        (trimSpace message).length = 0 then .badRequest
    else
      let topic := truncateInput topic0 48
      let dn := truncateInput display_name 24
      let msg := truncateInput message 256
      let chat : ChatPost := ⟨dn, msg, topic⟩
      .published [(topic, chat), (ALL_CHATS, chat)]

/-!
## The long-poll broker, modelled from the spec

The broker (per-topic buffers, waiters, publish/subscribe) is the
external `golongpoll` library: only its callers are in this repository,
so the definitions below are modelled from the specification.
-/

/-- Modelled from the spec: the Event Envelope of the broker, which is
not part of this repository's source (only its callers are).  A topic
key, a millisecond timestamp and an opaque payload. -/
structure Event (α : Type) where
  topic : List Nat
  timestamp : Nat
  payload : α
deriving DecidableEq

/-- Modelled from the spec: a Topic Buffer of the broker (missing from
the source) — a bounded, time-bounded ordered log of events for one
topic key. -/
structure TopicBuffer (α : Type) where
  key : List Nat
  events : List (Event α)
  maxSize : Nat
  ttl : Nat
deriving DecidableEq

/-- Modelled from the spec: `append(event)` of the Topic Buffer (missing
from the source) — insert at the tail; if the length exceeds
`maxSize`, evict from the head (oldest) until within bound.  Total:
no error conditions. -/
def TopicBuffer.append (b : TopicBuffer α) (e : Event α) : TopicBuffer α :=
  let evs := b.events ++ [e]
  { b with events := evs.drop (evs.length - b.maxSize) }

/-- Modelled from the spec: `query(sinceTimestamp)` of the Topic Buffer
(missing from the source) — all retained events with
`timestamp > sinceTimestamp` and age at most `ttl`, where age is
measured from the supplied current time `now`.  Returns a (possibly
empty) sequence, never an error. -/
def TopicBuffer.query (b : TopicBuffer α) (now since : Nat) : List (Event α) :=
  b.events.filter (fun e => decide (since < e.timestamp) && decide (now - e.timestamp ≤ b.ttl))

/-- A sequence of publish calls observed by one Topic Buffer, oldest
first. -/
def publishSeq (b : TopicBuffer α) (es : List (Event α)) : TopicBuffer α :=
  es.foldl TopicBuffer.append b

/-- The last `n` elements of a list (what head eviction retains). -/
def takeLast (n : Nat) (l : List α) : List α := l.drop (l.length - n)

/-- Modelled from the spec: the result of a `subscribe` call — either
newly available events with status `data`, or status `timeout`. -/
inductive SubscribeResult (α : Type) where
  | data (events : List (Event α))
  | timeout
deriving DecidableEq

/-- Modelled from the spec: the suspended phase of a `subscribe` call
whose initial query was empty (the broker's Waiter is missing from
the source).  `arrivals` are the events later published to the
watched topic, in broker order; the first one that is within the
deadline and strictly newer than the cursor resolves the Waiter with
exactly that event, and the deadline elapsing first resolves it with
`timeout`. -/
def waitLoop (since deadline : Nat) : List (Event α) → SubscribeResult α
  | [] => .timeout
  | e :: rest =>
    if e.timestamp ≤ deadline then
      if since < e.timestamp then .data [e]
      else waitLoop since deadline rest
    else .timeout

/-- Modelled from the spec: `subscribe(topic, sinceTimestamp, timeout)`
against one Topic Buffer (missing from the source) — first `query`;
a non-empty result returns immediately with status `data`, otherwise
the call suspends on the future `arrivals` until the deadline. -/
def subscribe (b : TopicBuffer α) (now since deadline : Nat)
    (arrivals : List (Event α)) : SubscribeResult α :=
  let evs := b.query now since
  if evs.isEmpty then waitLoop since deadline arrivals else .data evs

/-- Modelled from the spec: the broker's error taxonomy (missing from
the source); `Timeout` is a normal outcome, not an error kind. -/
inductive ErrKind where
  | invalidArgument
  | internal
deriving DecidableEq

/-- Modelled from the spec: a pending Waiter registration of the broker
(missing from the source). -/
structure Waiter where
  topic : List Nat
  sinceTimestamp : Nat
  deadline : Nat
deriving DecidableEq

/-- Modelled from the spec: the broker's process-wide registry (missing
from the source): topic-keyed buffers, pending waiters, and the
configuration supplied at start (maximum buffer size, retention,
maximum allowed subscribe timeout; src/unnamed/part_000 supplies
`MaxLongpollTimeoutSeconds: 120`). -/
structure LongpollManager (α : Type) where
  buffers : List (List Nat × TopicBuffer α)
  waiters : List Waiter
  maxEventBufferSize : Nat
  eventTimeToLiveSeconds : Nat
  maxTimeoutSeconds : Nat
deriving DecidableEq

/-- The buffer currently registered for a topic, or the lazily created
empty one. -/
def lookupBuffer (m : LongpollManager α) (topic : List Nat) : TopicBuffer α :=
  match m.buffers.find? (fun p => decide (p.1 = topic)) with
  | some p => p.2
  | none => ⟨topic, [], m.maxEventBufferSize, m.eventTimeToLiveSeconds⟩

/-- Append an event to the buffer registered for `topic`, creating the
buffer lazily on first use. -/
def updateBuffers (maxSize ttl : Nat) (topic : List Nat) (e : Event α) :
    List (List Nat × TopicBuffer α) → List (List Nat × TopicBuffer α)
  | [] => [(topic, TopicBuffer.append ⟨topic, [], maxSize, ttl⟩ e)]
  | (k, b) :: rest =>
    if k = topic then (k, b.append e) :: rest
    else (k, b) :: updateBuffers maxSize ttl topic e rest

/-- Whether a publish at time `now` on `topic` wakes the waiter. -/
def wakes (topic : List Nat) (now : Nat) (w : Waiter) : Bool :=
  decide (w.topic = topic) && decide (w.sinceTimestamp < now)

/-- Modelled from the spec: `publish(topic, payload)` of the broker
(missing from the source) — construct an Event Envelope with the
current timestamp, append it to the named Topic Buffer, then resolve
every pending Waiter registered on that topic whose cursor the new
event exceeds.  The function is total: it performs the whole effect
and never fails, and the woken waiters are returned for the caller
(fire-and-forget, no acknowledgment). -/
def publishM (m : LongpollManager α) (topic : List Nat) (payload : α) (now : Nat) :
    LongpollManager α × List Waiter :=
  let e : Event α := ⟨topic, now, payload⟩
  ({ m with
      buffers := updateBuffers m.maxEventBufferSize m.eventTimeToLiveSeconds topic e m.buffers,
      waiters := m.waiters.filter (fun w => !wakes topic now w) },
   m.waiters.filter (wakes topic now))

/-- Modelled from the spec: the synchronous part of the broker's
`subscribe` (missing from the source).  The timeout is validated
first: a non-positive value or one exceeding the configured maximum
fails fast with `InvalidArgument` before any Waiter is created.  A
valid call answers immediately from the buffer when the query is
non-empty, and otherwise registers a Waiter with the deadline
`now + timeoutSeconds`. -/
inductive SubStart (α : Type) where
  | immediate (events : List (Event α))
  | waiting
deriving DecidableEq

/-- Modelled from the spec: entry of `subscribe` on the broker state;
returns the (possibly updated) state together with the synchronous
outcome.  `timeoutSeconds` is a signed integer so that non-positive
requests are representable. -/
def subscribeStart (m : LongpollManager α) (topic : List Nat) (since now : Nat)
    (timeoutSeconds : Int) : LongpollManager α × Except ErrKind (SubStart α) :=
  if timeoutSeconds ≤ 0 ∨ (m.maxTimeoutSeconds : Int) < timeoutSeconds then
    (m, .error .invalidArgument)
  else
    let evs := (lookupBuffer m topic).query now since
    if evs.isEmpty then
      ({ m with waiters := m.waiters ++ [⟨topic, since, now + timeoutSeconds.toNat⟩] },
       .ok .waiting)
    else (m, .ok (.immediate evs))

/-- Modelled from the spec: the per-Waiter lifecycle state (the Waiter
implementation is missing from the source). -/
inductive WaiterPhase (α : Type) where
  | pending
  | resolvedData (events : List (Event α))
  | resolvedTimeout
  | resolvedAborted
deriving DecidableEq

/-- Modelled from the spec: the per-Waiter state machine — the only
transitions resolve a pending Waiter with data, with a timeout, or
as aborted at broker shutdown. -/
inductive WaiterStep (α : Type) : WaiterPhase α → WaiterPhase α → Prop where
  | wake (evs : List (Event α)) : WaiterStep α .pending (.resolvedData evs)
  | timeout : WaiterStep α .pending .resolvedTimeout
  | abort : WaiterStep α .pending .resolvedAborted

/-- Two hyphens never appear adjacently. -/
def NoDoubleDash (l : List Nat) : Prop :=
  l.Chain' (fun a b => ¬(a = 45 ∧ b = 45))

/-- The topic `"sports"` of the spec's eviction scenario.  Code points
of `s p o r t s`. -/
def sportsTopic : List Nat := [115, 112, 111, 114, 116, 115]

/-!
## Theorems
-/

theorem truncateInput_length_le (s : List Nat) (n : Nat) :
    (truncateInput s n).length ≤ n := by
  unfold truncateInput
  split
  · rw [List.length_take]
    omega
  · omega

/-- Claim C9: `truncateInput(s, maxlen)` returns `s` unchanged when `s`
has at most `maxlen` runes and otherwise exactly the first `maxlen`
runes of `s`; consequently every `ChatPost` published by the
length-enforcing handler has a topic of at most 48 runes, a display
name of at most 24 runes and a message of at most 256 runes. -/
theorem truncateInput_spec :
    (∀ (s : List Nat) (maxlen : Nat), s.length ≤ maxlen → truncateInput s maxlen = s) ∧
    (∀ (s : List Nat) (maxlen : Nat), maxlen < s.length →
      truncateInput s maxlen = s.take maxlen) ∧
    (∀ (method t d msg : List Nat) (pubs : List (List Nat × ChatPost)),
      handleChatPostTrunc method t d msg = .published pubs →
      ∀ pr ∈ pubs, pr.2.Topic.length ≤ 48 ∧ pr.2.DisplayName.length ≤ 24 ∧
        pr.2.Message.length ≤ 256) := by
  refine ⟨?_, ?_, ?_⟩
  · intro s n h
    unfold truncateInput
    rw [if_neg (by omega)]
  · intro s n h
    unfold truncateInput
    rw [if_pos (by omega)]
  · intro method t d msg pubs h pr hpr
    simp only [handleChatPostTrunc] at h
    split at h
    · exact absurd h (by simp)
    · split at h
      · exact absurd h (by simp)
      · injection h with h
        subst h
        simp only [List.mem_cons, List.not_mem_nil, or_false] at hpr
        rcases hpr with rfl | rfl <;>
          exact ⟨truncateInput_length_le _ _, truncateInput_length_le _ _,
            truncateInput_length_le _ _⟩

theorem truncateInput_spec_witness :
    ([3, 4] : List Nat).length ≤ 7 ∧ truncateInput [3, 4] 7 = [3, 4] :=
  ⟨by decide, truncateInput_spec.1 [3, 4] 7 (by decide)⟩

/-- Claim C8: an accepted chat post (non-blank normalized topic, display
name and message) makes the handler publish exactly two events
carrying the identical `ChatPost`: first to the normalized topic,
then to the catch-all topic `ALL_CHATS`. -/
theorem chatPost_double_publish (t d msg : List Nat)
    (hT : trimSpace (normalizeTopic t) ≠ [])
    (hD : trimSpace d ≠ []) (hM : trimSpace msg ≠ []) :
    handleChatPost POST t d msg =
      .published [(normalizeTopic t, ⟨d, msg, normalizeTopic t⟩),
                  (ALL_CHATS, ⟨d, msg, normalizeTopic t⟩)] := by
  simp [handleChatPost, List.length_eq_zero, hT, hD, hM]

theorem chatPost_double_publish_witness :
    trimSpace (normalizeTopic [83, 33, 112]) ≠ [] ∧
    handleChatPost POST [83, 33, 112] [66] [104, 105] =
      .published [(normalizeTopic [83, 33, 112],
                    ⟨[66], [104, 105], normalizeTopic [83, 33, 112]⟩),
                  (ALL_CHATS, ⟨[66], [104, 105], normalizeTopic [83, 33, 112]⟩)] :=
  ⟨by decide, chatPost_double_publish [83, 33, 112] [66] [104, 105]
    (by decide) (by decide) (by decide)⟩

/-- Claim C7: the per-Waiter state machine only moves from `pending` to
one of the three resolved states, a resolved state admits no further
step (single-fire), and along any reachable sequence of steps a
non-pending state never changes again. -/
theorem waiterStep_single_fire (α : Type) :
    (∀ (s s' : WaiterPhase α), WaiterStep α s s' → s = WaiterPhase.pending) ∧
    (∀ (s s' : WaiterPhase α), WaiterStep α s s' →
      (∃ evs, s' = WaiterPhase.resolvedData evs) ∨ s' = WaiterPhase.resolvedTimeout ∨
        s' = WaiterPhase.resolvedAborted) ∧
    (∀ (s₁ s₂ s₃ : WaiterPhase α), WaiterStep α s₁ s₂ → ¬ WaiterStep α s₂ s₃) ∧
    (∀ (s s' : WaiterPhase α), Relation.ReflTransGen (WaiterStep α) s s' →
      s ≠ WaiterPhase.pending → s' = s) := by
  refine ⟨?_, ?_, ?_, ?_⟩
  · intro s s' h
    cases h <;> rfl
  · intro s s' h
    cases h with
    | wake evs => exact .inl ⟨evs, rfl⟩
    | timeout => exact .inr (.inl rfl)
    | abort => exact .inr (.inr rfl)
  · intro s₁ s₂ s₃ h h'
    cases h <;> cases h'
  · intro s s' h hne
    induction h with
    | refl => rfl
    | tail hab hbc ih =>
      rw [ih] at hbc
      cases hbc <;> exact absurd rfl hne

theorem waiterStep_single_fire_witness :
    WaiterStep Nat WaiterPhase.pending WaiterPhase.resolvedTimeout ∧
    ¬ WaiterStep Nat WaiterPhase.resolvedTimeout WaiterPhase.resolvedAborted :=
  ⟨WaiterStep.timeout,
    (waiterStep_single_fire Nat).2.2.1 WaiterPhase.pending _ _ WaiterStep.timeout⟩

/-- Claim C5: a subscribe call with an invalid timeout (non-positive,
or above the configured maximum) fails synchronously with
`InvalidArgument`, leaves the broker state (in particular the
pending-waiter list) unchanged, and never enters the waiting
state. -/
theorem subscribeStart_invalid_timeout (α : Type) (m : LongpollManager α)
    (topic : List Nat) (since now : Nat) (timeoutSeconds : Int)
    (h : timeoutSeconds ≤ 0 ∨ (m.maxTimeoutSeconds : Int) < timeoutSeconds) :
    subscribeStart m topic since now timeoutSeconds = (m, .error .invalidArgument) ∧
    (subscribeStart m topic since now timeoutSeconds).1.waiters = m.waiters ∧
    (subscribeStart m topic since now timeoutSeconds).2 ≠ .ok .waiting := by
  unfold subscribeStart
  rw [if_pos h]
  exact ⟨rfl, rfl, by simp⟩

theorem subscribeStart_invalid_timeout_witness :
    ((0 : Int) ≤ 0 ∨ (((⟨[], [], 1000, 100, 120⟩ : LongpollManager Nat).maxTimeoutSeconds : Int) < 0)) ∧
    subscribeStart (⟨[], [], 1000, 100, 120⟩ : LongpollManager Nat) [97] 0 5 0 =
      ((⟨[], [], 1000, 100, 120⟩ : LongpollManager Nat), .error .invalidArgument) :=
  ⟨Or.inl le_rfl,
    (subscribeStart_invalid_timeout Nat ⟨[], [], 1000, 100, 120⟩ [97] 0 5 0
      (Or.inl le_rfl)).1⟩

theorem takeLast_takeLast_append (n : Nat) (x y : List α) :
    takeLast n (takeLast n x ++ y) = takeLast n (x ++ y) := by
  unfold takeLast
  rcases Nat.le_total x.length n with h | h
  · have hx : x.length - n = 0 := Nat.sub_eq_zero_of_le h
    simp [hx]
  · have hB : x.length - n ≤ x.length := Nat.sub_le _ _
    rw [← List.drop_append_of_le_length hB, List.drop_drop]
    congr 1
    simp only [List.length_drop, List.length_append]
    omega

theorem append_events_length_le (b : TopicBuffer α) (e : Event α) :
    (b.append e).events.length ≤ b.maxSize ∨
      (b.append e).events.length = b.events.length + 1 := by
  simp only [TopicBuffer.append, List.length_drop, List.length_append, List.length_cons]
  omega

theorem publishSeq_eq (b : TopicBuffer α) (es : List (Event α))
    (hb : b.events.length ≤ b.maxSize) :
    publishSeq b es = { b with events := takeLast b.maxSize (b.events ++ es) } := by
  induction es generalizing b with
  | nil =>
    have hx : b.events.length - b.maxSize = 0 := Nat.sub_eq_zero_of_le hb
    simp [publishSeq, takeLast, hx]
  | cons e es ih =>
    have hstep : (b.append e).events.length ≤ (b.append e).maxSize := by
      simp only [TopicBuffer.append, List.length_drop, List.length_append, List.length_cons]
      omega
    have h1 : publishSeq b (e :: es) = publishSeq (b.append e) es := rfl
    rw [h1, ih (b.append e) hstep]
    have h2 : (b.append e).events = takeLast b.maxSize (b.events ++ [e]) := rfl
    have h3 : (b.append e).maxSize = b.maxSize := rfl
    simp only [TopicBuffer.append]
    rw [show (b.events ++ [e]).drop ((b.events ++ [e]).length - b.maxSize) =
          takeLast b.maxSize (b.events ++ [e]) from rfl,
        takeLast_takeLast_append, List.append_assoc, List.singleton_append]

/-- Claim C1: publishing a sequence of events to a (fresh) Topic Buffer
and then querying with cursor 0 returns exactly the published
events, unchanged and in insertion order, with no gaps, reordering
or duplication, as long as eviction has not trimmed the head (the
sequence fits in `maxSize`) and the events are positive-timestamped
and within the retention window. -/
theorem query_zero_after_publishSeq (α : Type) (b : TopicBuffer α) (es : List (Event α))
    (now : Nat) (hb : b.events = []) (hfit : es.length ≤ b.maxSize)
    (hts : ∀ e ∈ es, 0 < e.timestamp ∧ now - e.timestamp ≤ b.ttl) :
    (publishSeq b es).query now 0 = es := by
  have hb' : b.events.length ≤ b.maxSize := by simp [hb]
  rw [publishSeq_eq b es hb']
  have hz : es.length - b.maxSize = 0 := Nat.sub_eq_zero_of_le hfit
  simp only [TopicBuffer.query, takeLast, hb, List.nil_append, List.length_nil, hz,
    List.drop_zero]
  refine List.filter_eq_self.mpr ?_
  intro e he
  have := hts e he
  simp only [Bool.and_eq_true, decide_eq_true_eq]
  omega

theorem query_zero_after_publishSeq_witness :
    (⟨sportsTopic, [], 3, 10⟩ : TopicBuffer Nat).events = [] ∧
    (publishSeq (⟨sportsTopic, [], 3, 10⟩ : TopicBuffer Nat)
        [⟨sportsTopic, 1, 11⟩, ⟨sportsTopic, 2, 22⟩]).query 2 0 =
      [⟨sportsTopic, 1, 11⟩, ⟨sportsTopic, 2, 22⟩] :=
  ⟨rfl, query_zero_after_publishSeq Nat ⟨sportsTopic, [], 3, 10⟩
    [⟨sportsTopic, 1, 11⟩, ⟨sportsTopic, 2, 22⟩] 2 rfl (by decide) (by decide)⟩

/-- Claim C2: after any number of appends a Topic Buffer holds at most
`maxSize` events, the retained events stay sorted by timestamp
(given timestamps were appended in nondecreasing order), the
retained events are a suffix of the full published sequence (so the
oldest, head events are evicted first), and the spec's scenario with
`maxSize = 3` and four publishes to `"sports"` retains exactly
`[e2, e3, e4]`.  `append` itself is a total function: it has no
error conditions. -/
theorem append_bound_sorted_evict (α : Type) (b : TopicBuffer α) (es : List (Event α))
    (hb : b.events.length ≤ b.maxSize)
    (hsorted : (b.events ++ es).Pairwise (fun e₁ e₂ => e₁.timestamp ≤ e₂.timestamp)) :
    (publishSeq b es).events.length ≤ b.maxSize ∧
    (publishSeq b es).events.Pairwise (fun e₁ e₂ => e₁.timestamp ≤ e₂.timestamp) ∧
    (publishSeq b es).events <:+ (b.events ++ es) ∧
    (publishSeq (⟨sportsTopic, [], 3, 10⟩ : TopicBuffer Nat)
        [⟨sportsTopic, 1, 1⟩, ⟨sportsTopic, 2, 2⟩, ⟨sportsTopic, 3, 3⟩,
         ⟨sportsTopic, 4, 4⟩]).query 4 0 =
      [⟨sportsTopic, 2, 2⟩, ⟨sportsTopic, 3, 3⟩, ⟨sportsTopic, 4, 4⟩] := by
  rw [publishSeq_eq b es hb]
  refine ⟨?_, ?_, ?_, by decide⟩
  · simp only [takeLast, List.length_drop]
    omega
  · exact hsorted.sublist (List.drop_sublist _ _)
  · exact List.drop_suffix _ _

theorem append_bound_sorted_evict_witness :
    ([] : List (Event Nat)).length ≤ 3 ∧
    (publishSeq (⟨sportsTopic, [], 3, 10⟩ : TopicBuffer Nat)
        [⟨sportsTopic, 1, 1⟩, ⟨sportsTopic, 2, 2⟩, ⟨sportsTopic, 3, 3⟩,
         ⟨sportsTopic, 4, 4⟩]).events.length ≤ 3 :=
  ⟨by decide,
    (append_bound_sorted_evict Nat ⟨sportsTopic, [], 3, 10⟩
      [⟨sportsTopic, 1, 1⟩, ⟨sportsTopic, 2, 2⟩, ⟨sportsTopic, 3, 3⟩, ⟨sportsTopic, 4, 4⟩]
      (by decide) (by decide)).1⟩

/-- Claim C3: `query(sinceTimestamp)` returns, in ascending timestamp
order, exactly the retained events with timestamp strictly greater
than the cursor and age at most `ttl`; it returns the empty sequence
(not an error) when nothing qualifies, and an event whose timestamp
equals the cursor is excluded. -/
theorem query_filter_spec (α : Type) (b : TopicBuffer α) (now since : Nat)
    (hsorted : b.events.Pairwise (fun e₁ e₂ => e₁.timestamp ≤ e₂.timestamp)) :
    (b.query now since).Pairwise (fun e₁ e₂ => e₁.timestamp ≤ e₂.timestamp) ∧
    (b.query now since).Sublist b.events ∧
    (∀ e, e ∈ b.query now since ↔
      e ∈ b.events ∧ since < e.timestamp ∧ now - e.timestamp ≤ b.ttl) ∧
    ((∀ e ∈ b.events, ¬(since < e.timestamp ∧ now - e.timestamp ≤ b.ttl)) →
      b.query now since = []) ∧
    (∀ e ∈ b.query now since, e.timestamp ≠ since) := by
  have hmem : ∀ e, e ∈ b.query now since ↔
      e ∈ b.events ∧ since < e.timestamp ∧ now - e.timestamp ≤ b.ttl := by
    intro e
    simp [TopicBuffer.query, List.mem_filter, and_assoc]
  refine ⟨hsorted.sublist (List.filter_sublist _), List.filter_sublist _, hmem, ?_, ?_⟩
  · intro hnone
    refine List.filter_eq_nil_iff.mpr ?_
    intro e he
    have := hnone e he
    simp only [Bool.and_eq_true, decide_eq_true_eq, not_and]
    intro h1 h2
    exact this ⟨h1, h2⟩
  · intro e he
    have := (hmem e).mp he
    omega

theorem query_filter_spec_witness :
    ([⟨sportsTopic, 2, 5⟩] : List (Event Nat)).Pairwise
      (fun e₁ e₂ => e₁.timestamp ≤ e₂.timestamp) ∧
    ((⟨sportsTopic, [⟨sportsTopic, 2, 5⟩], 3, 10⟩ : TopicBuffer Nat).query 2 2 = []) :=
  ⟨by simp,
    (query_filter_spec Nat ⟨sportsTopic, [⟨sportsTopic, 2, 5⟩], 3, 10⟩ 2 2
      (by simp)).2.2.2.1 (by decide)⟩

theorem waitLoop_data_mem (since deadline : Nat) (l evs : List (Event α))
    (h : waitLoop since deadline l = .data evs) : ∀ e ∈ evs, since < e.timestamp := by
  induction l with
  | nil => exact absurd h (by simp [waitLoop])
  | cons e rest ih =>
    unfold waitLoop at h
    split at h
    · split at h
      · injection h with h
        subst h
        simpa using by assumption
      · exact ih h
    · exact absurd h (by simp)

theorem waitLoop_timeout (since deadline : Nat) (l : List (Event α))
    (h : ∀ e ∈ l, since < e.timestamp → deadline < e.timestamp) :
    waitLoop since deadline l = .timeout := by
  induction l with
  | nil => rfl
  | cons e rest ih =>
    have he := h e (List.mem_cons_self e rest)
    unfold waitLoop
    split
    next hle =>
      rw [if_neg]
      · exact ih (fun x hx => h x (List.mem_cons_of_mem e hx))
      · intro hs
        exact absurd (he hs) (by omega)
    next => rfl

/-- Claim C4: a subscribe with a valid timeout answers immediately with
status `data` when the initial query is non-empty; when it is empty,
a matching publish before the deadline resolves it with exactly the
newly published event and status `data` (in particular a subscribe
issued before any publish resolves with that one event); with no
matching publish before the deadline it resolves with status
`timeout`; and a `data` result never contains an event whose
timestamp is at or below the supplied cursor. -/
theorem subscribe_longpoll_spec (α : Type) (b : TopicBuffer α) (now since deadline : Nat)
    (arrivals : List (Event α)) :
    (b.query now since ≠ [] →
      subscribe b now since deadline arrivals = .data (b.query now since)) ∧
    (b.query now since = [] → ∀ e rest, arrivals = e :: rest → e.timestamp ≤ deadline →
      since < e.timestamp → subscribe b now since deadline arrivals = .data [e]) ∧
    (b.query now since = [] →
      (∀ e ∈ arrivals, since < e.timestamp → deadline < e.timestamp) →
      subscribe b now since deadline arrivals = .timeout) ∧
    (∀ evs, subscribe b now since deadline arrivals = .data evs →
      ∀ e ∈ evs, since < e.timestamp) := by
  refine ⟨?_, ?_, ?_, ?_⟩
  · intro hne
    unfold subscribe
    rw [if_neg (by simpa [List.isEmpty_iff] using hne)]
  · intro hq e rest harr hd hs
    subst harr
    unfold subscribe
    rw [if_pos (by simp [List.isEmpty_iff, hq])]
    unfold waitLoop
    rw [if_pos hd, if_pos hs]
  · intro hq hnone
    unfold subscribe
    rw [if_pos (by simp [List.isEmpty_iff, hq])]
    exact waitLoop_timeout since deadline arrivals hnone
  · intro evs h e he
    simp only [subscribe] at h
    split at h
    · exact waitLoop_data_mem since deadline arrivals evs h e he
    · injection h with h
      subst h
      simp only [TopicBuffer.query, List.mem_filter, Bool.and_eq_true,
        decide_eq_true_eq] at he
      exact he.2.1

theorem subscribe_longpoll_spec_witness :
    (⟨[110], [], 5, 9⟩ : TopicBuffer Nat).query 10 0 = [] ∧
    subscribe (⟨[110], [], 5, 9⟩ : TopicBuffer Nat) 10 0 50 [⟨[110], 12, 7⟩] =
      .data [⟨[110], 12, 7⟩] :=
  ⟨by decide,
    (subscribe_longpoll_spec Nat ⟨[110], [], 5, 9⟩ 10 0 50 [⟨[110], 12, 7⟩]).2.1
      (by decide) ⟨[110], 12, 7⟩ [] rfl (by decide) (by decide)⟩

theorem find?_updateBuffers_eq (maxSize ttl : Nat) (topic : List Nat) (e : Event α)
    (bufs : List (List Nat × TopicBuffer α)) :
    (updateBuffers maxSize ttl topic e bufs).find? (fun p => decide (p.1 = topic)) =
      some (topic,
        TopicBuffer.append
          (match bufs.find? (fun p => decide (p.1 = topic)) with
           | some p => p.2
           | none => ⟨topic, [], maxSize, ttl⟩) e) := by
  induction bufs with
  | nil => simp [updateBuffers]
  | cons kb rest ih =>
    obtain ⟨k, b⟩ := kb
    by_cases hk : k = topic
    · subst hk
      simp [updateBuffers]
    · simp [updateBuffers, hk, ih]

theorem find?_updateBuffers_ne (maxSize ttl : Nat) (topic t' : List Nat) (e : Event α)
    (bufs : List (List Nat × TopicBuffer α)) (hne : t' ≠ topic) :
    (updateBuffers maxSize ttl topic e bufs).find? (fun p => decide (p.1 = t')) =
      bufs.find? (fun p => decide (p.1 = t')) := by
  induction bufs with
  | nil => simp [updateBuffers, Ne.symm hne]
  | cons kb rest ih =>
    obtain ⟨k, b⟩ := kb
    by_cases hk : k = topic
    · subst hk
      simp [updateBuffers, Ne.symm hne]
    · by_cases hk' : k = t'
      · subst hk'
        simp [updateBuffers, hk]
      · simp [updateBuffers, hk, hk', ih]

/-- Claim C6: `publish` is a total function on the broker state — it
never fails, and in one step the new event is appended to the
targeted topic's buffer, exactly the matching pending waiters (same
topic, cursor strictly below the event's timestamp) are resolved and
removed, the remaining waiters are unchanged, and buffers of other
topics are untouched; no delivery acknowledgment is produced beyond
the list of woken waiters. -/
theorem publish_total_effect (α : Type) (m : LongpollManager α) (topic : List Nat)
    (payload : α) (now : Nat) :
    lookupBuffer (publishM m topic payload now).1 topic =
      (lookupBuffer m topic).append ⟨topic, now, payload⟩ ∧
    (publishM m topic payload now).1.waiters =
      m.waiters.filter (fun w => !wakes topic now w) ∧
    (publishM m topic payload now).2 = m.waiters.filter (wakes topic now) ∧
    (∀ w ∈ (publishM m topic payload now).2, w.topic = topic ∧ w.sinceTimestamp < now) ∧
    (∀ w ∈ (publishM m topic payload now).1.waiters, w ∈ m.waiters) ∧
    (∀ t', t' ≠ topic →
      lookupBuffer (publishM m topic payload now).1 t' = lookupBuffer m t') := by
  refine ⟨?_, rfl, rfl, ?_, ?_, ?_⟩
  · unfold lookupBuffer publishM
    simp only
    rw [find?_updateBuffers_eq]
  · intro w hw
    simp only [publishM, List.mem_filter, wakes, Bool.and_eq_true, decide_eq_true_eq] at hw
    exact hw.2
  · intro w hw
    simp only [publishM, List.mem_filter] at hw
    exact hw.1
  · intro t' hne
    unfold lookupBuffer publishM
    simp only
    rw [find?_updateBuffers_ne _ _ _ _ _ _ hne]

theorem publish_total_effect_witness :
    ([98] : List Nat) ≠ [97] ∧
    lookupBuffer (publishM (⟨[], [], 1000, 100, 120⟩ : LongpollManager Nat) [97] 5 9).1 [98] =
      lookupBuffer (⟨[], [], 1000, 100, 120⟩ : LongpollManager Nat) [98] :=
  ⟨by decide,
    (publish_total_effect Nat ⟨[], [], 1000, 100, 120⟩ [97] 5 9).2.2.2.2.2 [98] (by decide)⟩

theorem isAlnumGo_ne_dash {c : Nat} (h : isAlnumGo c = true) : c ≠ 45 := by
  simp only [isAlnumGo, Bool.or_eq_true, Bool.and_eq_true, decide_eq_true_eq] at h
  omega

theorem mem_replaceAux {flag : Bool} {l : List Nat} {c : Nat}
    (h : c ∈ replaceAux flag l) : isAlnumGo c = true ∨ c = 45 := by
  induction l generalizing flag with
  | nil => simp [replaceAux] at h
  | cons a rest ih =>
    unfold replaceAux at h
    split at h
    · rcases List.mem_cons.mp h with rfl | h'
      · left; assumption
      · exact ih h'
    · split at h
      · exact ih h
      · rcases List.mem_cons.mp h with rfl | h'
        · right; rfl
        · exact ih h'

theorem head_replaceAux_true {l : List Nat} {x : Nat}
    (h : (replaceAux true l).head? = some x) : isAlnumGo x = true := by
  induction l with
  | nil => simp [replaceAux] at h
  | cons a rest ih =>
    unfold replaceAux at h
    split at h
    next ha =>
      rw [List.head?_cons] at h
      injection h with h
      rw [← h]
      exact ha
    next ha =>
      rw [if_pos rfl] at h
      exact ih h

theorem noDoubleDash_replaceAux (flag : Bool) (l : List Nat) :
    NoDoubleDash (replaceAux flag l) := by
  induction l generalizing flag with
  | nil => simp [replaceAux, NoDoubleDash]
  | cons a rest ih =>
    unfold NoDoubleDash replaceAux
    split
    next ha =>
      rw [List.chain'_cons']
      refine ⟨?_, ih false⟩
      rintro b hb ⟨h1, h2⟩
      exact isAlnumGo_ne_dash ha h1
    next ha =>
      split
      · exact ih true
      · rw [List.chain'_cons']
        refine ⟨?_, ih true⟩
        rintro b hb ⟨h1, h2⟩
        subst h2
        exact isAlnumGo_ne_dash (head_replaceAux_true (Option.mem_def.mp hb)) rfl

theorem replaceAux_fixed (l : List Nat)
    (hall : ∀ c ∈ l, isAlnumGo c = true ∨ c = 45)
    (hchain : NoDoubleDash l) :
    replaceAux false l = l ∧ (l.head? ≠ some 45 → replaceAux true l = l) := by
  induction l with
  | nil => exact ⟨rfl, fun _ => rfl⟩
  | cons a rest ih =>
    have hrest : ∀ c ∈ rest, isAlnumGo c = true ∨ c = 45 :=
      fun c hc => hall c (List.mem_cons_of_mem a hc)
    obtain ⟨ihf, iht⟩ := ih hrest hchain.tail
    rcases hall a (List.mem_cons_self a rest) with ha | ha
    · constructor
      · unfold replaceAux
        rw [if_pos ha, ihf]
      · intro _
        unfold replaceAux
        rw [if_pos ha, ihf]
    · subst ha
      have h45 : rest.head? ≠ some 45 := by
        have hc := (List.chain'_cons'.mp hchain).1
        intro hsome
        exact hc 45 (Option.mem_def.mpr hsome) ⟨rfl, rfl⟩
      constructor
      · unfold replaceAux
        rw [if_neg (by decide), if_neg (by simp), iht h45]
      · intro hh
        exact absurd rfl hh

theorem head?_dropWhile_not {α : Type} (p : α → Bool) (l : List α) (x : α)
    (h : (l.dropWhile p).head? = some x) : p x = false := by
  induction l with
  | nil => simp [List.dropWhile] at h
  | cons a rest ih =>
    cases hpa : p a with
    | true =>
      rw [List.dropWhile_cons_of_pos hpa] at h
      exact ih h
    | false =>
      rw [List.dropWhile_cons_of_neg (by simp [hpa]), List.head?_cons] at h
      injection h with h
      rw [← h]
      exact hpa

theorem getLast?_dropWhile_ne_nil {α : Type} (p : α → Bool) (l : List α)
    (h : l.dropWhile p ≠ []) : (l.dropWhile p).getLast? = l.getLast? := by
  induction l with
  | nil => exact absurd rfl h
  | cons a rest ih =>
    cases hpa : p a with
    | true =>
      rw [List.dropWhile_cons_of_pos hpa] at h ⊢
      have hrest : rest ≠ [] := by
        intro hr
        rw [hr] at h
        exact absurd rfl h
      rw [ih h]
      cases rest with
      | nil => exact absurd rfl hrest
      | cons b rs => rw [List.getLast?_cons_cons]
    | false =>
      rw [List.dropWhile_cons_of_neg (by simp [hpa])]

theorem getLast?_rev {α : Type} (l : List α) : l.reverse.getLast? = l.head? := by
  have h := List.head?_reverse l.reverse
  rw [List.reverse_reverse] at h
  exact h.symm

theorem head?_trimDashes (l : List Nat) (x : Nat)
    (h : (trimDashes l).head? = some x) : x ≠ 45 := by
  unfold trimDashes at h
  rw [List.head?_reverse] at h
  have hne : (l.dropWhile fun c => c == 45).reverse.dropWhile (fun c => c == 45) ≠ [] := by
    intro hb
    rw [hb] at h
    exact absurd h (by simp)
  rw [getLast?_dropWhile_ne_nil _ _ hne, getLast?_rev] at h
  have := head?_dropWhile_not (fun c => c == 45) l x h
  simpa using this

theorem getLast?_trimDashes (l : List Nat) (x : Nat)
    (h : (trimDashes l).getLast? = some x) : x ≠ 45 := by
  unfold trimDashes at h
  rw [getLast?_rev] at h
  have := head?_dropWhile_not (fun c => c == 45) (l.dropWhile fun c => c == 45).reverse x h
  simpa using this

theorem dropWhile_eq_self_of_head {α : Type} (p : α → Bool) (l : List α)
    (h : ∀ x, l.head? = some x → p x = false) : l.dropWhile p = l := by
  cases l with
  | nil => rfl
  | cons a rest => rw [List.dropWhile_cons_of_neg (by simp [h a rfl])]

theorem trimDashes_eq_self (l : List Nat)
    (hh : ∀ x, l.head? = some x → x ≠ 45)
    (hl : ∀ x, l.getLast? = some x → x ≠ 45) :
    trimDashes l = l := by
  unfold trimDashes
  rw [dropWhile_eq_self_of_head _ l (fun x hx => by simpa using hh x hx),
    dropWhile_eq_self_of_head _ l.reverse
      (fun x hx => by simpa using hl x (by rwa [List.head?_reverse] at hx)),
    List.reverse_reverse]

theorem noDoubleDash_rev {l : List Nat} (h : NoDoubleDash l) : NoDoubleDash l.reverse := by
  unfold NoDoubleDash at *
  rw [List.chain'_reverse]
  exact List.Chain'.imp (fun a b hab => fun hp => hab ⟨hp.2, hp.1⟩) h

theorem noDoubleDash_dropWhile (p : Nat → Bool) {l : List Nat} (h : NoDoubleDash l) :
    NoDoubleDash (l.dropWhile p) :=
  List.Chain'.suffix h (List.dropWhile_suffix p)

theorem noDoubleDash_trimDashes {l : List Nat} (h : NoDoubleDash l) :
    NoDoubleDash (trimDashes l) :=
  noDoubleDash_rev (noDoubleDash_dropWhile _ (noDoubleDash_rev (noDoubleDash_dropWhile _ h)))

theorem mem_trimDashes_sub {l : List Nat} {c : Nat} (h : c ∈ trimDashes l) : c ∈ l := by
  unfold trimDashes at h
  rw [List.mem_reverse] at h
  have h1 : c ∈ (l.dropWhile fun x => x == 45).reverse :=
    (List.dropWhile_suffix _).sublist.subset h
  rw [List.mem_reverse] at h1
  exact (List.dropWhile_suffix _).sublist.subset h1

theorem toLowerRune_eq_self {c : Nat} (h : ¬(65 ≤ c ∧ c ≤ 90)) : toLowerRune c = c := by
  unfold toLowerRune
  rw [if_neg (by simpa using h)]

theorem toLowerRune_upper {c : Nat} (h : 65 ≤ c ∧ c ≤ 90) : toLowerRune c = c + 32 := by
  unfold toLowerRune
  rw [if_pos (by simpa using h)]

theorem toLowerRune_eq_dash_iff (c : Nat) : toLowerRune c = 45 ↔ c = 45 := by
  by_cases h : 65 ≤ c ∧ c ≤ 90
  · rw [toLowerRune_upper h]
    omega
  · rw [toLowerRune_eq_self h]

theorem toLowerRune_idem (c : Nat) : toLowerRune (toLowerRune c) = toLowerRune c := by
  by_cases h : 65 ≤ c ∧ c ≤ 90
  · rw [toLowerRune_upper h, toLowerRune_eq_self (by omega)]
  · rw [toLowerRune_eq_self h, toLowerRune_eq_self h]

theorem isAlnumGo_toLowerRune {c : Nat} (h : isAlnumGo c = true) :
    isAlnumGo (toLowerRune c) = true := by
  simp only [isAlnumGo, Bool.or_eq_true, Bool.and_eq_true, decide_eq_true_eq] at h ⊢
  by_cases hu : 65 ≤ c ∧ c ≤ 90
  · rw [toLowerRune_upper hu]
    omega
  · rw [toLowerRune_eq_self hu]
    omega

theorem normalizeTopic_props (t : List Nat) :
    (∀ c ∈ normalizeTopic t, (isAlnumGo c = true ∨ c = 45) ∧ toLowerRune c = c) ∧
    (normalizeTopic t).head? ≠ some 45 ∧
    (normalizeTopic t).getLast? ≠ some 45 ∧
    NoDoubleDash (normalizeTopic t) := by
  refine ⟨?_, ?_, ?_, ?_⟩
  · intro c hc
    obtain ⟨x, hx, rfl⟩ := List.mem_map.mp hc
    have hx' : x ∈ replaceNonAlnumRuns t := mem_trimDashes_sub hx
    rcases mem_replaceAux hx' with ha | ha
    · exact ⟨Or.inl (isAlnumGo_toLowerRune ha), toLowerRune_idem x⟩
    · subst ha
      exact ⟨Or.inr rfl, rfl⟩
  · intro hcontra
    rw [show normalizeTopic t = (trimDashes (replaceNonAlnumRuns t)).map toLowerRune from rfl,
      List.head?_map] at hcontra
    rcases hopt : (trimDashes (replaceNonAlnumRuns t)).head? with _ | x
    · rw [hopt] at hcontra
      exact absurd hcontra (by simp)
    · rw [hopt] at hcontra
      have hx45 : toLowerRune x = 45 := by
        simpa using hcontra
      exact head?_trimDashes _ x hopt ((toLowerRune_eq_dash_iff x).mp hx45)
  · intro hcontra
    rw [show normalizeTopic t = (trimDashes (replaceNonAlnumRuns t)).map toLowerRune from rfl,
      List.getLast?_map] at hcontra
    rcases hopt : (trimDashes (replaceNonAlnumRuns t)).getLast? with _ | x
    · rw [hopt] at hcontra
      exact absurd hcontra (by simp)
    · rw [hopt] at hcontra
      have hx45 : toLowerRune x = 45 := by
        simpa using hcontra
      exact getLast?_trimDashes _ x hopt ((toLowerRune_eq_dash_iff x).mp hx45)
  · have hm : NoDoubleDash (trimDashes (replaceNonAlnumRuns t)) :=
      noDoubleDash_trimDashes (noDoubleDash_replaceAux false t)
    unfold NoDoubleDash at *
    rw [show normalizeTopic t = (trimDashes (replaceNonAlnumRuns t)).map toLowerRune from rfl,
      List.chain'_map]
    refine List.Chain'.imp ?_ hm
    intro a b hab hp
    exact hab ⟨(toLowerRune_eq_dash_iff a).mp hp.1, (toLowerRune_eq_dash_iff b).mp hp.2⟩

/-- Claim C10: `normalizeTopic` is idempotent, its result never begins
or ends with a hyphen, contains no two adjacent hyphens, and
contains only alphanumeric characters and hyphens, all of them fixed
by lowercasing (the microchat.go variant; the part_001 variant omits
the lowercasing step). -/
theorem normalizeTopic_idem_normalized (t : List Nat) :
    normalizeTopic (normalizeTopic t) = normalizeTopic t ∧
    (normalizeTopic t).head? ≠ some 45 ∧
    (normalizeTopic t).getLast? ≠ some 45 ∧
    NoDoubleDash (normalizeTopic t) ∧
    (∀ c ∈ normalizeTopic t, (isAlnumGo c = true ∨ c = 45) ∧ toLowerRune c = c) := by
  obtain ⟨hmem, hh, hl, hch⟩ := normalizeTopic_props t
  refine ⟨?_, hh, hl, hch, hmem⟩
  have hall : ∀ c ∈ normalizeTopic t, isAlnumGo c = true ∨ c = 45 :=
    fun c hc => (hmem c hc).1
  have h1 : replaceNonAlnumRuns (normalizeTopic t) = normalizeTopic t :=
    (replaceAux_fixed (normalizeTopic t) hall hch).1
  have h2 : trimDashes (normalizeTopic t) = normalizeTopic t :=
    trimDashes_eq_self (normalizeTopic t)
      (fun x hx => by rintro rfl; exact hh hx)
      (fun x hx => by rintro rfl; exact hl hx)
  have h3 : toLowerGo (normalizeTopic t) = normalizeTopic t := by
    conv_rhs => rw [show normalizeTopic t = List.map id (normalizeTopic t) from
      (List.map_id _).symm]
    exact List.map_congr_left (fun a ha => (hmem a ha).2)
  show toLowerGo (trimDashes (replaceNonAlnumRuns (normalizeTopic t))) = normalizeTopic t
  rw [h1, h2, h3]

theorem normalizeTopic_idem_normalized_witness :
    (104 ∈ normalizeTopic [72, 101, 33, 33, 108, 111]) ∧
    ((isAlnumGo 104 = true ∨ (104 : Nat) = 45) ∧ toLowerRune 104 = 104) :=
  ⟨by decide,
    (normalizeTopic_idem_normalized [72, 101, 33, 33, 108, 111]).2.2.2.2 104 (by decide)⟩

end MicroChat

